import Mathlib

/-!
# Verification of the rank-priority AVL index (`src/datastructure/avl.rs`)

Shallow embedding of the task-scheduler repository's rank index: the `Task`
record (`src/datastructure/mod.rs`), the rank chain (`linklist` module,
modelled from the spec since its source file is not in the tree), and the
`AvlTree` with its `insert`, `balance_factor`, `update_height`, `balance`,
`left_rotation` and `right_rotation` operations (`src/datastructure/avl.rs`).

Rust `i32` fields are modelled as `Int` (the heights and ranks reached here
are far from the `i32` boundaries, and `i32::cmp` agrees with `Int` order).
A Rust child pointer `Option<Arc<Mutex<AvlTree>>>` is modelled by a dedicated
`nil` constructor: `nil` is the absent child (`None`), and a present
`Some(node)` is a `mk` node; the `Arc<Mutex<_>>` wrapper is transparent to
the sequential semantics.  A tree handed to the API is always a `mk` node
(Rust callers hold an actual `AvlTree` struct, never an absent child), so the
`nil` arms of the operations below are unreachable through the API; they are
noted in each definition.  The one panic site, `ll.get_head().unwrap()` on an
empty chain, is modelled by `insert` returning `none`.
-/

namespace TaskScheduler

/-- Embeds `Task` (`src/datastructure/mod.rs`, lines 10-15): `{id, rank, state}`,
all `i32`. -/
structure Task where
  id : Int
  rank : Int
  state : Int
deriving DecidableEq, Repr

/-- Modelled from the spec: the `linklist` module's `LinkList` type is declared
in `src/datastructure/mod.rs` (`pub mod linklist`) but its source file is not
under `src/`.  Per spec §4.1 a Rank Chain is an ordered FIFO sequence of task
records: `push_back` appends preserving arrival order, `get_head` returns the
first element without removing it. -/
structure LinkList where
  tasks : List Task
deriving DecidableEq, Repr

/-- Modelled from the spec: a freshly created chain is empty. -/
def LinkList.new : LinkList := ⟨[]⟩

/-- Modelled from the spec: `push_back` appends at the tail, preserving
arrival order. -/
def LinkList.push_back (ll : LinkList) (t : Task) : LinkList :=
  ⟨ll.tasks ++ [t]⟩

/-- Modelled from the spec: `get_head` returns the first element, if any,
without removing it (the Rust call site clones out of the returned handle). -/
def LinkList.get_head (ll : LinkList) : Option Task :=
  ll.tasks.head?

/-- Embeds `TaskorLink` (avl.rs lines 15-19): a node value is either a single
task or a linked list. -/
inductive TaskorLink where
  | STask (t : Task)
  | Link (ll : LinkList)
deriving DecidableEq, Repr

/-- Embeds `AvlTree` (avl.rs lines 21-27): `val : Option<TaskorLink>`,
`height : i32`, and left/right children.  `nil` encodes an absent child
(`None` in the Rust `Option<Arc<Mutex<AvlTree>>>` fields); a present node is
`mk`. -/
inductive AvlTree where
  | nil
  | mk (val : Option TaskorLink) (height : Int) (left : AvlTree) (right : AvlTree)
deriving DecidableEq, Repr

/-- Embeds Rust `i32::cmp` on ranks: `Less` / `Equal` / `Greater`. -/
def icmp (a b : Int) : Ordering :=
  if a < b then .lt else if a = b then .eq else .gt

namespace AvlTree

/-- The `val` field of a node (`none` for an absent child). -/
def valOf : AvlTree → Option TaskorLink
  | nil => none
  | mk v _ _ _ => v

/-- The `left` child of a node. -/
def leftOf : AvlTree → AvlTree
  | nil => nil
  | mk _ _ l _ => l

/-- The `right` child of a node. -/
def rightOf : AvlTree → AvlTree
  | nil => nil
  | mk _ _ _ r => r

/-- Height as read by the Rust
`node.map(|n| n.lock().unwrap().height).unwrap_or(0)` idiom
(avl.rs lines 123-132, 138-147): 0 for an absent child, the stored `height`
field otherwise. -/
def heightOf : AvlTree → Int
  | nil => 0
  | mk _ h _ _ => h

/-- Embeds `AvlTree::new` (avl.rs lines 30-37).  Note: the Rust constructor
takes a `task` parameter but never uses it — the node it builds has
`val: None`, height 1 and no children. -/
def new (task : Task) : AvlTree := mk none 1 nil nil

/-- Embeds `is_empty` (avl.rs lines 40-42): the tree is empty when `val` is
`None`.  (The `nil` arm has no Rust counterpart: `is_empty` is only invoked
on a present node.) -/
def is_empty : AvlTree → Bool
  | nil => true
  | mk v _ _ _ => v.isNone

/-- Embeds `update_height` (avl.rs lines 137-150):
`height = 1 + max(left height, right height)` with absent children at 0.
(The `nil` arm has no Rust counterpart: the method is only invoked on a
present node.) -/
def update_height : AvlTree → AvlTree
  | nil => nil
  | mk v _ l r => mk v (1 + max (heightOf l) (heightOf r)) l r

/-- Embeds `balance_factor` (avl.rs lines 122-134): left height minus right
height, absent children counting 0.  (The `nil` arm has no Rust
counterpart.) -/
def balance_factor : AvlTree → Int
  | nil => 0
  | mk _ _ l r => heightOf l - heightOf r

/-- Embeds `balance` (avl.rs lines 253-265).  The body only calls
`update_height`; the LL/LR/RL/RR rotation cases appear there solely as
comments, so no rotation is ever performed. -/
def balance (t : AvlTree) : AvlTree := update_height t

/-- Embeds `left_rotation` (avl.rs lines 161-200).  When the right child has a
left child, the Rust `take()`s that grandchild (only cloning its `val` into an
unused local) and then reads the now-empty `left` slot into `self.right`, so
both the grandchild and the right child's right subtree are lost.  When the
right child has no left child, the rotation is the canonical one for that
shape. -/
def left_rotation : AvlTree → AvlTree
  | nil => update_height nil
  | mk val height left right =>
    match right with
    | nil => update_height (mk val height left right)
    | mk nrVal _ nrLeft nrRight =>
      match nrLeft with
      | nil => update_height (mk nrVal height (mk val height left nil) nrRight)
      | mk _ _ _ _ => update_height (mk nrVal height (mk val height left nil) nil)

/-- Embeds `right_rotation` (avl.rs lines 211-250).  When the left child has a
right child, the Rust `take()`s that grandchild and drops it (only its `val`
is cloned into an unused local); the two source branches otherwise perform
identical relinking, so both arms below produce the same shape — minus the
lost grandchild in the first. -/
def right_rotation : AvlTree → AvlTree
  | nil => update_height nil
  | mk val height left right =>
    match left with
    | nil => update_height (mk val height left right)
    | mk nlVal _ nlLeft nlRight =>
      match nlRight with
      | nil => update_height (mk nlVal height nlLeft (mk val height nil right))
      | mk _ _ _ _ => update_height (mk nlVal height nlLeft (mk val height nil right))

/-- Embeds `insert` (avl.rs lines 44-50) with `r_insert` (lines 52-119)
inlined into the value-carrying arms: `insert` stores the task directly when
the node is empty, otherwise runs `r_insert` (whose own `None` arm is
unreachable, since `insert` dispatches on `is_empty` first).  Recursive
descent goes through the public `insert` of the child, exactly as the Rust
(`right_leaf.insert(new_val)`), and a failure below propagates.  The result
`none` models the Rust panic at `ll.get_head().unwrap()` on an empty chain;
the `nil` arm has no Rust counterpart (insert is never invoked on an absent
child) and is also mapped to `none`.  Two oddities are kept faithful to the
source: a child created on descent is `AvlTree::new(new_val)`, which discards
`new_val`; and the chain arms have no `else` branch, so a task that would
need a fresh child there is silently dropped. -/
def insert : AvlTree → Task → Option AvlTree
  | nil, _ => none
  | mk none h l r, new_val => some (mk (some (.STask new_val)) h l r)
  | mk (some (.STask cur_task)) h l r, new_val =>
    match icmp cur_task.rank new_val.rank with
    | .eq =>
      some (balance (mk (some (.Link ((LinkList.new.push_back cur_task).push_back new_val))) h l r))
    | .gt =>
      match r with
      | nil => some (balance (mk (some (.STask cur_task)) h l (new new_val)))
      | mk a b c d =>
        (insert (mk a b c d) new_val).map fun right' =>
          balance (mk (some (.STask cur_task)) h l right')
    | .lt =>
      match l with
      | nil => some (balance (mk (some (.STask cur_task)) h (new new_val) r))
      | mk a b c d =>
        (insert (mk a b c d) new_val).map fun left' =>
          balance (mk (some (.STask cur_task)) h left' r)
  | mk (some (.Link ll)) h l r, new_val =>
    match ll.get_head with
    | none => none
    | some cur_node =>
      match icmp cur_node.rank new_val.rank with
      | .eq =>
        some (balance (mk (some (.Link (ll.push_back new_val))) h l r))
      | .gt =>
        match r with
        | nil => some (balance (mk (some (.Link ll)) h l r))
        | mk a b c d =>
          (insert (mk a b c d) new_val).map fun right' =>
            balance (mk (some (.Link ll)) h l right')
      | .lt =>
        match l with
        | nil => some (balance (mk (some (.Link ll)) h l r))
        | mk a b c d =>
          (insert (mk a b c d) new_val).map fun left' =>
            balance (mk (some (.Link ll)) h left' r)

/-- All tasks stored in a node value: none for an empty value, the single task
for `STask`, the chain's tasks in arrival order for `Link`. -/
def valTasks : Option TaskorLink → List Task
  | none => []
  | some (.STask t) => [t]
  | some (.Link ll) => ll.tasks

/-- In-order flattening of the tree: left subtree, then the node's own tasks,
then the right subtree. -/
def toList : AvlTree → List Task
  | nil => []
  | mk v _ l r => toList l ++ valTasks v ++ toList r

/-- The representative rank of a node value: the task's rank for a singleton,
the head task's rank for a chain (avl.rs lines 58 and 90-91). -/
def reprRankOf : Option TaskorLink → Option Int
  | some (.STask t) => some t.rank
  | some (.Link ll) => ll.get_head.map Task.rank
  | none => none

/-- All ranks stored in the tree, in in-order position. -/
def rankList (t : AvlTree) : List Int := (toList t).map Task.rank

/-- The AVL balance condition of spec §3: every node has
`|height(left) − height(right)| ≤ 1` (heights as stored in the nodes, which
is what `balance_factor` reads). -/
def balancedB : AvlTree → Bool
  | nil => true
  | mk _ _ l r =>
    decide ((heightOf l - heightOf r).natAbs ≤ 1) && balancedB l && balancedB r

/-- A node value that is "exactly one of a single task or a non-empty chain"
(spec §3 Tree Node). -/
def nodeFilled : Option TaskorLink → Bool
  | some (.STask _) => true
  | some (.Link ll) => decide (ll.tasks ≠ [])
  | none => false

/-- Every node attached as a child (i.e. every reachable node except the
root itself) holds a single task or a non-empty chain. -/
def childrenFilled : AvlTree → Bool
  | nil => true
  | mk _ _ l r =>
    (match l with | nil => true | mk lv _ _ _ => nodeFilled lv) && childrenFilled l &&
    (match r with | nil => true | mk rv _ _ _ => nodeFilled rv) && childrenFilled r

/-- The binary-search property exactly as the spec states it (§3): at every
node, all ranks in the left subtree are strictly below the node's
representative rank and all ranks in the right subtree strictly above. -/
def specSearchOrdered : AvlTree → Bool
  | nil => true
  | mk v _ l r =>
    (match reprRankOf v with
     | some k => (rankList l).all (fun x => decide (x < k)) &&
                 (rankList r).all (fun x => decide (k < x))
     | none => true) &&
    specSearchOrdered l && specSearchOrdered r

/-- The mirrored search property the code actually maintains: at every node,
all ranks in the left subtree are strictly above the node's representative
rank and all ranks in the right subtree strictly below. -/
def mirrorSearchOrdered : AvlTree → Bool
  | nil => true
  | mk v _ l r =>
    (match reprRankOf v with
     | some k => (rankList l).all (fun x => decide (k < x)) &&
                 (rankList r).all (fun x => decide (x < k))
     | none => true) &&
    mirrorSearchOrdered l && mirrorSearchOrdered r

/-- `x` lies strictly inside the open interval `(lo, hi)` (an absent bound is
infinite). -/
def withinB (lo hi : Option Int) (x : Int) : Bool :=
  (match lo with | some a => decide (a < x) | none => true) &&
  (match hi with | some b => decide (x < b) | none => true)

/-- The inductive invariant `insert` maintains, relative to open rank bounds
`(lo, hi)`: an empty-valued node has no children; a filled node has a
representative rank `k` inside the bounds, all its own tasks have rank
exactly `k`, its left subtree satisfies the invariant within `(k, hi)` and
its right subtree within `(lo, k)` (the code's mirrored ordering). -/
def invP (lo hi : Option Int) : AvlTree → Prop
  | nil => True
  | mk none _ l r => l = nil ∧ r = nil
  | mk (some tl) _ l r =>
    ∃ k, reprRankOf (some tl) = some k ∧ withinB lo hi k = true ∧
      (∀ u ∈ valTasks (some tl), u.rank = k) ∧
      invP (some k) hi l ∧ invP lo (some k) r

/-- Folds `insert` over a list of tasks in order, propagating the panic
case. -/
def insertAll (t : AvlTree) : List Task → Option AvlTree
  | [] => some t
  | v :: vs => (insert t v).bind fun u => insertAll u vs

end AvlTree

/-- A task with a given id and rank and state 0 (the repository's sample data
always uses state 0). -/
def mkTask (i r : Int) : Task := ⟨i, r, 0⟩

/-- The tree a caller starts from: `AvlTree::new` of an arbitrary sample task
(the constructor ignores it and produces the empty root). -/
def emptyStart : AvlTree := AvlTree.new (mkTask 0 0)

/-- A node whose right child has both a left grandchild (id 3) and a right
grandchild (id 4): the interesting shape for `left_rotation`. -/
def rotLeftExample : AvlTree :=
  .mk (some (.STask (mkTask 1 10))) 3 .nil
    (.mk (some (.STask (mkTask 2 20))) 2
      (.mk (some (.STask (mkTask 3 30))) 1 .nil .nil)
      (.mk (some (.STask (mkTask 4 40))) 1 .nil .nil))

/-- A node whose left child has both a left grandchild (id 4) and a right
grandchild (id 3): the interesting shape for `right_rotation`. -/
def rotRightExample : AvlTree :=
  .mk (some (.STask (mkTask 1 10))) 3
    (.mk (some (.STask (mkTask 2 20))) 2
      (.mk (some (.STask (mkTask 4 40))) 1 .nil .nil)
      (.mk (some (.STask (mkTask 3 30))) 1 .nil .nil))
    .nil

/-- A left-left-heavy tree: balance factor 2 at the root, factor 1 ≥ 0 at the
left child — precisely the LL case that spec §4.2 says must trigger a single
right rotation at the node. -/
def unbalancedLL : AvlTree :=
  .mk (some (.STask (mkTask 1 10))) 3
    (.mk (some (.STask (mkTask 2 20))) 2
      (.mk (some (.STask (mkTask 3 30))) 1 .nil .nil) .nil)
    .nil

/-- A root holding the single task id 1, rank 5. -/
def singleFive : AvlTree := .mk (some (.STask (mkTask 1 5))) 1 .nil .nil

/-- `singleFive` after a second rank-5 insert: the promoted two-task chain. -/
def chainedFive : AvlTree :=
  .mk (some (.Link ⟨[mkTask 1 5, mkTask 2 5]⟩)) 1 .nil .nil

/-- `singleFive` after a rank-3 insert: the task is discarded and an empty
node hangs on the right (the code sends smaller ranks right). -/
def droppedThreeTree : AvlTree :=
  .mk (some (.STask (mkTask 1 5))) 2 .nil (.mk none 1 .nil .nil)

/-- The tree reached from the empty root by inserting rank 2 then rank 3:
rank 3 is larger, so an (empty) node hangs on the left. -/
def twoInsertTree : AvlTree :=
  .mk (some (.STask (mkTask 1 2))) 2 (.mk none 1 .nil .nil) .nil

namespace AvlTree

/-! ## Unfolding and helper lemmas -/

theorem insert_nil (v : Task) : insert nil v = none := rfl

theorem insert_empty_val (hh : Int) (l r : AvlTree) (v : Task) :
    insert (mk none hh l r) v = some (mk (some (.STask v)) hh l r) := by
  cases l <;> cases r <;> rfl

theorem insert_stask (cur : Task) (hh : Int) (l r : AvlTree) (v : Task) :
    insert (mk (some (.STask cur)) hh l r) v =
      match icmp cur.rank v.rank with
      | .eq =>
        some (balance (mk (some (.Link ((LinkList.new.push_back cur).push_back v))) hh l r))
      | .gt =>
        match r with
        | nil => some (balance (mk (some (.STask cur)) hh l (new v)))
        | mk a b c d =>
          (insert (mk a b c d) v).map fun right' =>
            balance (mk (some (.STask cur)) hh l right')
      | .lt =>
        match l with
        | nil => some (balance (mk (some (.STask cur)) hh (new v) r))
        | mk a b c d =>
          (insert (mk a b c d) v).map fun left' =>
            balance (mk (some (.STask cur)) hh left' r) := by
  cases l <;> cases r <;> simp only [AvlTree.insert]

theorem insert_link (ll : LinkList) (hh : Int) (l r : AvlTree) (v : Task) :
    insert (mk (some (.Link ll)) hh l r) v =
      match ll.get_head with
      | none => none
      | some cur =>
        match icmp cur.rank v.rank with
        | .eq => some (balance (mk (some (.Link (ll.push_back v))) hh l r))
        | .gt =>
          match r with
          | nil => some (balance (mk (some (.Link ll)) hh l r))
          | mk a b c d =>
            (insert (mk a b c d) v).map fun right' =>
              balance (mk (some (.Link ll)) hh l right')
        | .lt =>
          match l with
          | nil => some (balance (mk (some (.Link ll)) hh l r))
          | mk a b c d =>
            (insert (mk a b c d) v).map fun left' =>
              balance (mk (some (.Link ll)) hh left' r) := by
  cases l <;> cases r <;> simp only [AvlTree.insert]

theorem icmp_eq_iff (a b : Int) : icmp a b = .eq ↔ a = b := by
  unfold icmp
  split_ifs with h1 h2 <;> simp <;> omega

theorem icmp_gt_iff (a b : Int) : icmp a b = .gt ↔ b < a := by
  unfold icmp
  split_ifs with h1 h2 <;> simp <;> omega

theorem icmp_lt_iff (a b : Int) : icmp a b = .lt ↔ a < b := by
  unfold icmp
  split_ifs with h1 h2 <;> simp <;> omega

theorem update_height_mk (v : Option TaskorLink) (h : Int) (l r : AvlTree) :
    update_height (mk v h l r) = mk v (1 + max (heightOf l) (heightOf r)) l r := rfl

theorem toList_balance (t : AvlTree) : toList (balance t) = toList t := by
  cases t <;> rfl

theorem leftOf_balance (v : Option TaskorLink) (h : Int) (l r : AvlTree) :
    (balance (mk v h l r)).leftOf = l := rfl

theorem rightOf_balance (v : Option TaskorLink) (h : Int) (l r : AvlTree) :
    (balance (mk v h l r)).rightOf = r := rfl

theorem valOf_balance (v : Option TaskorLink) (h : Int) (l r : AvlTree) :
    (balance (mk v h l r)).valOf = v := rfl

theorem invP_balance (lo hi : Option Int) (t : AvlTree) :
    invP lo hi (balance t) ↔ invP lo hi t := by
  cases t with
  | nil => exact Iff.rfl
  | mk v h l r => cases v <;> exact Iff.rfl

theorem withinB_none_none (x : Int) : withinB none none x = true := rfl

theorem withinB_lt (lo : Option Int) (k x : Int)
    (h : withinB lo (some k) x = true) : x < k := by
  cases lo <;> simp [withinB] at h <;> omega

theorem withinB_gt (hi : Option Int) (k x : Int)
    (h : withinB (some k) hi x = true) : k < x := by
  cases hi <;> simp [withinB] at h <;> omega

theorem withinB_weaken_lo (lo hi : Option Int) (k x : Int)
    (hk : withinB lo hi k = true) (hx : withinB (some k) hi x = true) :
    withinB lo hi x = true := by
  cases lo <;> cases hi <;> simp [withinB] at hk hx ⊢ <;> omega

theorem withinB_weaken_hi (lo hi : Option Int) (k x : Int)
    (hk : withinB lo hi k = true) (hx : withinB lo (some k) x = true) :
    withinB lo hi x = true := by
  cases lo <;> cases hi <;> simp [withinB] at hk hx ⊢ <;> omega

theorem withinB_tighten_hi (lo hi : Option Int) (k x : Int)
    (hk : withinB lo hi x = true) (hx : x < k) :
    withinB lo (some k) x = true := by
  cases lo <;> cases hi <;> simp [withinB] at hk ⊢ <;> omega

theorem withinB_tighten_lo (lo hi : Option Int) (k x : Int)
    (hk : withinB lo hi x = true) (hx : k < x) :
    withinB (some k) hi x = true := by
  cases lo <;> cases hi <;> simp [withinB] at hk ⊢ <;> omega

/-- `insert` preserves the bounded mirrored-search invariant: inserting a task
whose rank lies inside the bounds keeps the invariant, whenever the call
returns rather than panicking. -/
theorem insert_inv :
    ∀ t : AvlTree, ∀ lo hi : Option Int, invP lo hi t →
      ∀ v : Task, withinB lo hi v.rank = true →
      ∀ t', insert t v = some t' → invP lo hi t' := by
  intro t
  induction t with
  | nil =>
    intro lo hi _ v _ t' hins
    rw [insert_nil] at hins
    cases hins
  | mk vl hh l r ihl ihr =>
    intro lo hi hinv v hv t' hins
    cases vl with
    | none =>
      simp only [invP] at hinv
      obtain ⟨rfl, rfl⟩ := hinv
      rw [insert_empty_val] at hins
      obtain rfl := Option.some.inj hins
      simp only [invP]
      exact ⟨v.rank, rfl, hv, by simp [valTasks], trivial, trivial⟩
    | some tl =>
      simp only [invP] at hinv
      obtain ⟨k, hrep, hk, htasks, hinvl, hinvr⟩ := hinv
      cases tl with
      | STask cur =>
        have hkr : cur.rank = k := by simpa [reprRankOf] using hrep
        rcases hcmp : icmp cur.rank v.rank with _ | _ | _
        · have hlt : cur.rank < v.rank := (icmp_lt_iff _ _).1 hcmp
          cases l with
          | nil =>
            simp only [insert_stask, hcmp] at hins
            obtain rfl := Option.some.inj hins
            rw [invP_balance]
            simp only [invP]
            exact ⟨k, hrep, hk, htasks, ⟨trivial, trivial⟩, hinvr⟩
          | mk a b c d =>
            simp only [insert_stask, hcmp, Option.map_eq_some'] at hins
            obtain ⟨lt', hins', rfl⟩ := hins
            rw [invP_balance]
            simp only [invP]
            exact ⟨k, hrep, hk, htasks,
              ihl (some k) hi hinvl v
                (withinB_tighten_lo lo hi k v.rank hv (by omega)) lt' hins',
              hinvr⟩
        · have heq : cur.rank = v.rank := (icmp_eq_iff _ _).1 hcmp
          simp only [insert_stask, hcmp] at hins
          obtain rfl := Option.some.inj hins
          rw [invP_balance]
          simp only [invP]
          refine ⟨k, ?_, hk, ?_, hinvl, hinvr⟩
          · simp [reprRankOf, LinkList.get_head, LinkList.push_back, LinkList.new, hkr]
          · intro u hu
            simp only [valTasks, LinkList.push_back, LinkList.new,
              List.nil_append, List.cons_append, List.mem_cons,
              List.mem_singleton, List.not_mem_nil, or_false] at hu
            rcases hu with rfl | rfl
            · exact hkr
            · omega
        · have hgt : v.rank < cur.rank := (icmp_gt_iff _ _).1 hcmp
          cases r with
          | nil =>
            simp only [insert_stask, hcmp] at hins
            obtain rfl := Option.some.inj hins
            rw [invP_balance]
            simp only [invP]
            exact ⟨k, hrep, hk, htasks, hinvl, ⟨trivial, trivial⟩⟩
          | mk a b c d =>
            simp only [insert_stask, hcmp, Option.map_eq_some'] at hins
            obtain ⟨rt', hins', rfl⟩ := hins
            rw [invP_balance]
            simp only [invP]
            exact ⟨k, hrep, hk, htasks, hinvl,
              ihr lo (some k) hinvr v
                (withinB_tighten_hi lo hi k v.rank hv (by omega)) rt' hins'⟩
      | Link ll =>
        rcases hgh : ll.get_head with _ | cur
        · rw [reprRankOf, hgh] at hrep
          cases hrep
        · have hkr : cur.rank = k := by
            rw [reprRankOf, hgh] at hrep
            simpa using hrep
          obtain ⟨rest, hrest⟩ : ∃ rest, ll.tasks = cur :: rest := by
            rcases hll : ll.tasks with _ | ⟨a, rest⟩
            · rw [LinkList.get_head, hll] at hgh; cases hgh
            · rw [LinkList.get_head, hll] at hgh
              exact ⟨rest, by rw [Option.some.inj hgh]⟩
          rcases hcmp : icmp cur.rank v.rank with _ | _ | _
          · have hlt : cur.rank < v.rank := (icmp_lt_iff _ _).1 hcmp
            cases l with
            | nil =>
              simp only [insert_link, hgh, hcmp] at hins
              obtain rfl := Option.some.inj hins
              rw [invP_balance]
              simp only [invP]
              exact ⟨k, hrep, hk, htasks, trivial, hinvr⟩
            | mk a b c d =>
              simp only [insert_link, hgh, hcmp, Option.map_eq_some'] at hins
              obtain ⟨lt', hins', rfl⟩ := hins
              rw [invP_balance]
              simp only [invP]
              exact ⟨k, hrep, hk, htasks,
                ihl (some k) hi hinvl v
                  (withinB_tighten_lo lo hi k v.rank hv (by omega)) lt' hins',
                hinvr⟩
          · have heq : cur.rank = v.rank := (icmp_eq_iff _ _).1 hcmp
            simp only [insert_link, hgh, hcmp] at hins
            obtain rfl := Option.some.inj hins
            rw [invP_balance]
            simp only [invP]
            refine ⟨k, ?_, hk, ?_, hinvl, hinvr⟩
            · rw [reprRankOf, LinkList.get_head, LinkList.push_back, hrest]
              simp [hkr]
            · intro u hu
              simp only [valTasks, LinkList.push_back, List.mem_append,
                List.mem_singleton] at hu
              rcases hu with hu | rfl
              · exact htasks u (by simpa [valTasks] using hu)
              · omega
          · have hgt : v.rank < cur.rank := (icmp_gt_iff _ _).1 hcmp
            cases r with
            | nil =>
              simp only [insert_link, hgh, hcmp] at hins
              obtain rfl := Option.some.inj hins
              rw [invP_balance]
              simp only [invP]
              exact ⟨k, hrep, hk, htasks, hinvl, trivial⟩
            | mk a b c d =>
              simp only [insert_link, hgh, hcmp, Option.map_eq_some'] at hins
              obtain ⟨rt', hins', rfl⟩ := hins
              rw [invP_balance]
              simp only [invP]
              exact ⟨k, hrep, hk, htasks, hinvl,
                ihr lo (some k) hinvr v
                  (withinB_tighten_hi lo hi k v.rank hv (by omega)) rt' hins'⟩

/-- Every task stored in a tree satisfying the bounded invariant has its rank
inside the bounds. -/
theorem inv_rank_bounds :
    ∀ (t : AvlTree) (lo hi : Option Int), invP lo hi t →
      ∀ u ∈ toList t, withinB lo hi u.rank = true := by
  intro t
  induction t with
  | nil => intro lo hi _ u hu; simp [toList] at hu
  | mk vl hh l r ihl ihr =>
    intro lo hi hinv u hu
    simp only [toList, List.mem_append] at hu
    cases vl with
    | none =>
      simp only [invP] at hinv
      obtain ⟨rfl, rfl⟩ := hinv
      simp [toList, valTasks] at hu
    | some tl =>
      simp only [invP] at hinv
      obtain ⟨k, hrep, hk, htasks, hinvl, hinvr⟩ := hinv
      rcases hu with (hu | hu) | hu
      · exact withinB_weaken_lo lo hi k u.rank hk (ihl (some k) hi hinvl u hu)
      · rw [htasks u hu]; exact hk
      · exact withinB_weaken_hi lo hi k u.rank hk (ihr lo (some k) hinvr u hu)

/-- The bounded invariant implies the mirrored search ordering at every
node. -/
theorem invP_mirror :
    ∀ (t : AvlTree) (lo hi : Option Int), invP lo hi t →
      mirrorSearchOrdered t = true := by
  intro t
  induction t with
  | nil => intro lo hi _; rfl
  | mk vl hh l r ihl ihr =>
    intro lo hi hinv
    cases vl with
    | none =>
      simp only [invP] at hinv
      obtain ⟨rfl, rfl⟩ := hinv
      rfl
    | some tl =>
      simp only [invP] at hinv
      obtain ⟨k, hrep, hk, htasks, hinvl, hinvr⟩ := hinv
      simp only [mirrorSearchOrdered, hrep, Bool.and_eq_true]
      refine ⟨⟨⟨?_, ?_⟩, ihl (some k) hi hinvl⟩, ihr lo (some k) hinvr⟩
      · rw [List.all_eq_true]
        intro x hx
        rw [rankList, List.mem_map] at hx
        obtain ⟨u, hu, rfl⟩ := hx
        exact decide_eq_true (withinB_gt hi k u.rank (inv_rank_bounds l (some k) hi hinvl u hu))
      · rw [List.all_eq_true]
        intro x hx
        rw [rankList, List.mem_map] at hx
        obtain ⟨u, hu, rfl⟩ := hx
        exact decide_eq_true (withinB_lt lo k u.rank (inv_rank_bounds r lo (some k) hinvr u hu))

/-- `insertAll` preserves the unbounded invariant. -/
theorem insertAll_inv :
    ∀ (vs : List Task) (t : AvlTree), invP none none t →
      ∀ t', insertAll t vs = some t' → invP none none t' := by
  intro vs
  induction vs with
  | nil =>
    intro t h t' hins
    simp only [insertAll] at hins
    obtain rfl := Option.some.inj hins
    exact h
  | cons v vs ih =>
    intro t h t' hins
    simp only [insertAll, Option.bind_eq_some] at hins
    obtain ⟨u, hu, hrest⟩ := hins
    exact ih u (insert_inv t none none h v (withinB_none_none v.rank) u hu) t' hrest

/-- `insert` only ever extends the in-order task sequence: the old sequence is
a sublist (same elements, same relative order) of the new one. -/
theorem insert_sublist :
    ∀ (t : AvlTree) (v : Task) (t' : AvlTree), insert t v = some t' →
      (toList t).Sublist (toList t') := by
  intro t
  induction t with
  | nil => intro v t' hins; rw [insert_nil] at hins; cases hins
  | mk vl hh l r ihl ihr =>
    intro v t' hins
    cases vl with
    | none =>
      rw [insert_empty_val] at hins
      obtain rfl := Option.some.inj hins
      exact List.Sublist.append
        ((List.Sublist.refl _).append (List.nil_sublist _)) (List.Sublist.refl _)
    | some tl =>
      cases tl with
      | STask cur =>
        rcases hcmp : icmp cur.rank v.rank with _ | _ | _
        · cases l with
          | nil =>
            simp only [insert_stask, hcmp] at hins
            obtain rfl := Option.some.inj hins
            rw [toList_balance]
            exact List.Sublist.refl _
          | mk a b c d =>
            simp only [insert_stask, hcmp, Option.map_eq_some'] at hins
            obtain ⟨lt', hins', rfl⟩ := hins
            rw [toList_balance]
            exact List.Sublist.append
              ((ihl v lt' hins').append (List.Sublist.refl _)) (List.Sublist.refl _)
        · simp only [insert_stask, hcmp] at hins
          obtain rfl := Option.some.inj hins
          rw [toList_balance]
          exact List.Sublist.append
            ((List.Sublist.refl _).append ((List.nil_sublist [v]).cons₂ cur))
            (List.Sublist.refl _)
        · cases r with
          | nil =>
            simp only [insert_stask, hcmp] at hins
            obtain rfl := Option.some.inj hins
            rw [toList_balance]
            exact List.Sublist.refl _
          | mk a b c d =>
            simp only [insert_stask, hcmp, Option.map_eq_some'] at hins
            obtain ⟨rt', hins', rfl⟩ := hins
            rw [toList_balance]
            exact List.Sublist.append (List.Sublist.refl _) (ihr v rt' hins')
      | Link ll =>
        rcases hgh : ll.get_head with _ | cur
        · simp only [insert_link, hgh] at hins
          cases hins
        · rcases hcmp : icmp cur.rank v.rank with _ | _ | _
          · cases l with
            | nil =>
              simp only [insert_link, hgh, hcmp] at hins
              obtain rfl := Option.some.inj hins
              rw [toList_balance]
            | mk a b c d =>
              simp only [insert_link, hgh, hcmp, Option.map_eq_some'] at hins
              obtain ⟨lt', hins', rfl⟩ := hins
              rw [toList_balance]
              exact List.Sublist.append
                ((ihl v lt' hins').append (List.Sublist.refl _)) (List.Sublist.refl _)
          · simp only [insert_link, hgh, hcmp] at hins
            obtain rfl := Option.some.inj hins
            rw [toList_balance]
            exact List.Sublist.append
              ((List.Sublist.refl _).append (List.sublist_append_left _ _))
              (List.Sublist.refl _)
          · cases r with
            | nil =>
              simp only [insert_link, hgh, hcmp] at hins
              obtain rfl := Option.some.inj hins
              rw [toList_balance]
            | mk a b c d =>
              simp only [insert_link, hgh, hcmp, Option.map_eq_some'] at hins
              obtain ⟨rt', hins', rfl⟩ := hins
              rw [toList_balance]
              exact List.Sublist.append (List.Sublist.refl _) (ihr v rt' hins')

end AvlTree

open AvlTree

/-! ## Claim theorems -/

/-- C1 (code bug): the claim says every insert leaves every node AVL-balanced
(`|height(left) − height(right)| ≤ 1`).  The code's `balance` is an empty
stub, so after inserting ranks 5, 3, 3, 1 from the empty root the root's
balance factor is −2 and the balance predicate fails — contradicting the
code's own header comment that the tree "ensures" this property. -/
theorem insert_sequence_breaks_avl_balance :
    (insertAll emptyStart [mkTask 1 5, mkTask 2 3, mkTask 3 3, mkTask 4 1]).map
        (fun t => (balancedB t, balance_factor t))
      = some (false, -2) := by decide

/-- C2 (code bug): the claim says `balance` dispatches the four rotation
cases.  In the code the body only recomputes the height: for every node it
returns the same value and children (first conjunct), and on a concrete
LL-shaped tree (factor 2 at the root, factor ≥ 0 at the left child — the
case the spec says must right-rotate) it changes nothing at all and leaves
the factor at 2. -/
theorem balance_performs_no_rotation :
    (∀ v hh l r, balance (.mk v hh l r)
        = .mk v (1 + max (heightOf l) (heightOf r)) l r) ∧
    balance_factor unbalancedLL = 2 ∧
    0 ≤ balance_factor unbalancedLL.leftOf ∧
    balance unbalancedLL = unbalancedLL :=
  ⟨fun v hh l r => rfl, by decide, by decide, by decide⟩

/-- C3 (code bug): the claim says `insert` always stores the task, creating a
singleton leaf when needed.  In the code `AvlTree::new` ignores its task
(first conjunct), so descending from a singleton creates an *empty* child and
the task is lost (second conjunct: after inserting ranks 5 then 3 only the
rank-5 task is stored), and from a chain node with no child on the needed
side the task is dropped without creating any node (third conjunct). -/
theorem insert_discards_new_tasks :
    (∀ t : Task, AvlTree.new t = .mk none 1 .nil .nil) ∧
    (insertAll emptyStart [mkTask 1 5, mkTask 2 3]).map toList = some [mkTask 1 5] ∧
    (insertAll emptyStart [mkTask 1 5, mkTask 2 5, mkTask 3 3]).map toList
      = some [mkTask 1 5, mkTask 2 5] :=
  ⟨fun t => rfl, by decide, by decide⟩

/-- C4 counterexample: the claim says a smaller rank descends into the LEFT
subtree.  Inserting ranks 5, 3, 4 from the empty root leaves the left subtree
empty and stores the rank-4 task (4 < 5) in the RIGHT subtree. -/
theorem smaller_rank_not_left_cex :
    (insertAll emptyStart [mkTask 1 5, mkTask 2 3, mkTask 3 4]).map
        (fun t => (toList t.leftOf, toList t.rightOf))
      = some ([], [mkTask 3 4]) := by decide

/-- C4 (amended): insert applies the MIRRORED convention consistently: at a
node with representative rank `k`, a task with rank below `k` only ever
touches the right child (left child and value unchanged), and a task with
rank above `k` only ever touches the left child (right child and value
unchanged). -/
theorem insert_descent_mirror_convention (v : Task) (vl : TaskorLink) (hh : Int)
    (l r : AvlTree) (k : Int) (hrep : reprRankOf (some vl) = some k) :
    (v.rank < k → ∀ t', insert (.mk (some vl) hh l r) v = some t' →
      t'.leftOf = l ∧ t'.valOf = some vl) ∧
    (k < v.rank → ∀ t', insert (.mk (some vl) hh l r) v = some t' →
      t'.rightOf = r ∧ t'.valOf = some vl) := by
  cases vl with
  | STask cur =>
    have hkr : cur.rank = k := by simpa [reprRankOf] using hrep
    constructor
    · intro hvk t' hins
      have hcmp : icmp cur.rank v.rank = .gt := (icmp_gt_iff _ _).2 (by omega)
      cases r with
      | nil =>
        simp only [insert_stask, hcmp] at hins
        obtain rfl := Option.some.inj hins
        exact ⟨rfl, rfl⟩
      | mk a b c d =>
        simp only [insert_stask, hcmp, Option.map_eq_some'] at hins
        obtain ⟨rt', _, rfl⟩ := hins
        exact ⟨rfl, rfl⟩
    · intro hkv t' hins
      have hcmp : icmp cur.rank v.rank = .lt := (icmp_lt_iff _ _).2 (by omega)
      cases l with
      | nil =>
        simp only [insert_stask, hcmp] at hins
        obtain rfl := Option.some.inj hins
        exact ⟨rfl, rfl⟩
      | mk a b c d =>
        simp only [insert_stask, hcmp, Option.map_eq_some'] at hins
        obtain ⟨lt', _, rfl⟩ := hins
        exact ⟨rfl, rfl⟩
  | Link ll =>
    rcases hgh : ll.get_head with _ | cur
    · rw [reprRankOf, hgh] at hrep
      cases hrep
    · have hkr : cur.rank = k := by
        rw [reprRankOf, hgh] at hrep
        simpa using hrep
      constructor
      · intro hvk t' hins
        have hcmp : icmp cur.rank v.rank = .gt := (icmp_gt_iff _ _).2 (by omega)
        cases r with
        | nil =>
          simp only [insert_link, hgh, hcmp] at hins
          obtain rfl := Option.some.inj hins
          exact ⟨rfl, rfl⟩
        | mk a b c d =>
          simp only [insert_link, hgh, hcmp, Option.map_eq_some'] at hins
          obtain ⟨rt', _, rfl⟩ := hins
          exact ⟨rfl, rfl⟩
      · intro hkv t' hins
        have hcmp : icmp cur.rank v.rank = .lt := (icmp_lt_iff _ _).2 (by omega)
        cases l with
        | nil =>
          simp only [insert_link, hgh, hcmp] at hins
          obtain rfl := Option.some.inj hins
          exact ⟨rfl, rfl⟩
        | mk a b c d =>
          simp only [insert_link, hgh, hcmp, Option.map_eq_some'] at hins
          obtain ⟨lt', _, rfl⟩ := hins
          exact ⟨rfl, rfl⟩

/-- Witness for C4's amended theorem at a concrete input: inserting rank 3
into the singleton rank-5 root changes only the right side. -/
theorem insert_descent_mirror_convention_witness :
    insert singleFive (mkTask 2 3) = some droppedThreeTree ∧
    droppedThreeTree.leftOf = .nil ∧
    droppedThreeTree.valOf = some (.STask (mkTask 1 5)) :=
  ⟨by decide,
   ((insert_descent_mirror_convention (mkTask 2 3) (.STask (mkTask 1 5)) 1 .nil .nil 5
      rfl).1 (by decide) droppedThreeTree (by decide)).1,
   ((insert_descent_mirror_convention (mkTask 2 3) (.STask (mkTask 1 5)) 1 .nil .nil 5
      rfl).1 (by decide) droppedThreeTree (by decide)).2⟩

/-- C5 counterexample: the claim states the standard binary-search property
(left ranks < node rank < right ranks).  After inserting ranks 1, 2, 3 from
the empty root, the root (rank 1) has rank 3 in its LEFT subtree, so the
predicate is false. -/
theorem spec_search_order_violated_cex :
    (insertAll emptyStart [mkTask 1 1, mkTask 2 2, mkTask 3 3]).map specSearchOrdered
      = some false := by decide

/-- C5 (amended): after every completed insert sequence from a fresh root the
MIRRORED search property holds: at every node, all ranks in the left subtree
are strictly greater than the node's representative rank and all ranks in the
right subtree strictly smaller. -/
theorem insertAll_mirror_search_ordered (t0 : Task) (vs : List Task)
    (t' : AvlTree) (h : insertAll (AvlTree.new t0) vs = some t') :
    mirrorSearchOrdered t' = true :=
  invP_mirror t' none none (insertAll_inv vs (AvlTree.new t0) ⟨rfl, rfl⟩ t' h)

/-- Witness for C5's amended theorem at a concrete insert sequence. -/
theorem insertAll_mirror_search_ordered_witness :
    insertAll (AvlTree.new (mkTask 0 0)) [mkTask 1 2, mkTask 2 3] = some twoInsertTree ∧
    mirrorSearchOrdered twoInsertTree = true :=
  ⟨by decide,
   insertAll_mirror_search_ordered (mkTask 0 0) [mkTask 1 2, mkTask 2 3]
     twoInsertTree (by decide)⟩

/-- C6 (code bug): the claim says rotations preserve the in-order sequence
and never drop the moved grandchild.  `left_rotation` on a node whose right
child has both grandchildren loses the inner grandchild (id 3) AND the right
child's right subtree (id 4); `right_rotation` on the mirror shape loses the
inner grandchild (id 3). -/
theorem rotations_drop_subtrees :
    toList rotLeftExample = [mkTask 1 10, mkTask 3 30, mkTask 2 20, mkTask 4 40] ∧
    toList (left_rotation rotLeftExample) = [mkTask 1 10, mkTask 2 20] ∧
    toList rotRightExample = [mkTask 4 40, mkTask 2 20, mkTask 3 30, mkTask 1 10] ∧
    toList (right_rotation rotRightExample) = [mkTask 4 40, mkTask 2 20, mkTask 1 10] := by
  decide

/-- C7 (code bug): the claim says a pair of equal-rank inserts always ends as
one node with a 2-element chain.  Insert ranks 5, 5 (making the root a
chain), then 3 twice: both rank-3 tasks are silently dropped (the chain arm
has no `else`), so no node for rank 3 exists at all. -/
theorem equal_rank_pair_lost :
    (insertAll emptyStart [mkTask 1 5, mkTask 2 5, mkTask 3 3, mkTask 4 3]).map toList
      = some [mkTask 1 5, mkTask 2 5] := by decide

/-- C8 (code bug): the claim says no insert ever leaves an empty-valued node
attached as a child.  After inserting ranks 5 then 3 from the empty root, the
root's right child is exactly the empty node `mk none 1 nil nil`. -/
theorem insert_attaches_empty_child :
    (insertAll emptyStart [mkTask 1 5, mkTask 2 3]).map childrenFilled = some false ∧
    (insertAll emptyStart [mkTask 1 5, mkTask 2 3]).map rightOf
      = some (.mk none 1 .nil .nil) :=
  ⟨by decide, by decide⟩

/-- C9 (confirmed): `insert` never removes, reorders or modifies stored
tasks: the old in-order task sequence is a sublist of the new one (same
tasks, unchanged fields, same relative order — so each rank's chain keeps its
order), and the same holds for the per-rank subsequences. -/
theorem insert_preserves_existing_tasks (t : AvlTree) (v : Task) (t' : AvlTree)
    (h : insert t v = some t') :
    (toList t).Sublist (toList t') ∧
    ∀ rk : Int, ((toList t).filter (fun u => decide (u.rank = rk))).Sublist
      ((toList t').filter (fun u => decide (u.rank = rk))) :=
  ⟨insert_sublist t v t' h, fun _ => (insert_sublist t v t' h).filter _⟩

/-- Witness for C9 at a concrete input: promoting the rank-5 singleton to a
chain keeps the old task first. -/
theorem insert_preserves_existing_tasks_witness :
    insert singleFive (mkTask 2 5) = some chainedFive ∧
    (toList singleFive).Sublist (toList chainedFive) :=
  ⟨by decide, (insert_preserves_existing_tasks singleFive (mkTask 2 5) chainedFive
    (by decide)).1⟩

end TaskScheduler
